import Mathlib

/-!
Verification of the distributed-training demo (`examples/distributed_training_demo.py`).

The embedding translates the Python source into Lean:
* `DistributedSimulator.receive` (lines 37-43) becomes `receiveAux`/`receive`,
  with fuel counting dequeue operations (the Python recursion blocks forever
  when no matching message exists, which the model renders as `none`).
* `DistributedSimulator.all_reduce_sum` (lines 52-67) becomes
  `all_reduce_sum`/`all_reduce_result`, built on the mailbox model, with
  numpy's 1-D in-place broadcast-add semantics captured by `npAddI`.
* the ring all-reduce of `example_ring_allreduce` (lines 429-462) becomes
  `phase1`/`phase2`/`ringAllReduce` over rank-indexed rational vectors.
* `ParameterServer` (lines 268-284) becomes `PState`/`psUpdate`, with numpy
  arrays modelled as heap cells so that the shallow `dict.copy()` of
  `get_parameters` and in-place `-=` mutation are rendered faithfully.
* the data-parallel coordinator update (lines 163-173) becomes `dpRun`.
* the federated aggregation (lines 606-609) becomes `fed_aggregate_vec`.

Floating-point arithmetic is embedded exactly over `ℚ`.
-/

namespace DistDemo

/-! ## Message fabric: `DistributedSimulator.send` / `receive`

A mailbox is a FIFO list of `(source_rank, payload)` pairs; `send` appends at
the back.  `receive(rank, source_rank)` dequeues the head; if a source filter
is given (sentinel `-1` means "any") and the head does not match, the head is
re-queued at the back (`Queue.put`) and the receive recurses.  `receiveAux`
gives one unit of fuel per dequeue; `receive` supplies `q.length` fuel, which
is exactly enough iff a matching message exists. -/

def receiveAux {α : Type} : Nat → List (Nat × α) → Int → Option (α × List (Nat × α))
  | 0, _, _ => none
  | _ + 1, [], _ => none
  | fuel + 1, (src, d) :: rest, want =>
    if want = -1 ∨ (src : Int) = want then some (d, rest)
    else receiveAux fuel (rest ++ [(src, d)]) want

def receive {α : Type} (q : List (Nat × α)) (want : Int) : Option (α × List (Nat × α)) :=
  receiveAux q.length q want

/-- Payloads of the messages of `q` whose source is `X`, oldest first. -/
def srcPayloads {α : Type} (X : Nat) (q : List (Nat × α)) : List α :=
  (q.filter (fun m => m.1 = X)).map Prod.snd

/-- Any successful `receiveAux` dequeues the oldest message from the requested
source and keeps the requested source's remaining messages in order. -/
theorem receiveAux_srcPayloads {α : Type} (X : Nat) :
    ∀ (fuel : Nat) (q : List (Nat × α)) (d : α) (q' : List (Nat × α)),
      receiveAux fuel q (X : Int) = some (d, q') →
      srcPayloads X q = d :: srcPayloads X q' := by
  intro fuel
  induction fuel with
  | zero => intro q d q' h; simp [receiveAux] at h
  | succ n ih =>
    intro q d q' h
    match q with
    | [] => simp [receiveAux] at h
    | (src, p) :: rest =>
      by_cases hs : src = X
      · subst hs
        simp [receiveAux] at h
        obtain ⟨hd, hq⟩ := h
        subst hd; subst hq
        simp [srcPayloads]
      · have hne : ¬((X : Int) = -1 ∨ (src : Int) = (X : Int)) := by
          push_neg
          constructor
          · omega
          · intro hc
            exact hs (by exact_mod_cast hc)
        rw [receiveAux] at h
        rw [if_neg hne] at h
        have := ih (rest ++ [(src, p)]) d q' h
        have hfil : srcPayloads X (rest ++ [(src, p)]) = srcPayloads X rest := by
          simp [srcPayloads, List.filter_append, hs]
        rw [hfil] at this
        simpa [srcPayloads, hs] using this

/-- With the first matching message at index `k`, any fuel strictly above `k`
returns that message's payload, and the remaining queue is the rotated
`q.drop (k+1) ++ q.take k`. -/
theorem receiveAux_first_match {α : Type} (X : Nat) (dflt : Nat × α) :
    ∀ (k : Nat) (q : List (Nat × α)) (fuel : Nat),
      k < q.length → (∀ m, m < k → (q.getD m dflt).1 ≠ X) → (q.getD k dflt).1 = X →
      k < fuel →
      receiveAux fuel q (X : Int) = some ((q.getD k dflt).2, q.drop (k + 1) ++ q.take k) := by
  intro k
  induction k with
  | zero =>
    intro q fuel hk _ hmatch hfuel
    match q, fuel with
    | (src, p) :: rest, f + 1 =>
      simp [List.getD_cons_zero] at hmatch
      simp [receiveAux, hmatch, List.getD_cons_zero]
  | succ k ih =>
    intro q fuel hk hbefore hmatch hfuel
    match q, fuel with
    | (src, p) :: rest, f + 1 =>
      have h0 : src ≠ X := by
        have := hbefore 0 (Nat.succ_pos k)
        simpa [List.getD_cons_zero] using this
      have hne : ¬((X : Int) = -1 ∨ (src : Int) = (X : Int)) := by
        push_neg
        refine ⟨by omega, fun hc => h0 (by exact_mod_cast hc)⟩
      rw [receiveAux, if_neg hne]
      have hklen : k < rest.length := by
        simpa using Nat.lt_of_succ_lt_succ hk
      have hbefore' : ∀ m, m < k → ((rest ++ [(src, p)]).getD m dflt).1 ≠ X := by
        intro m hm
        rw [List.getD_append _ _ _ _ (lt_trans hm hklen)]
        have := hbefore (m + 1) (Nat.succ_lt_succ hm)
        simpa [List.getD_cons_succ] using this
      have hmatch' : ((rest ++ [(src, p)]).getD k dflt).1 = X := by
        rw [List.getD_append _ _ _ _ hklen]
        simpa [List.getD_cons_succ] using hmatch
      have hlen' : k < (rest ++ [(src, p)]).length := by
        simp; omega
      have := ih (rest ++ [(src, p)]) f hlen' hbefore' hmatch' (Nat.lt_of_succ_lt_succ hfuel)
      rw [this]
      have e1 : ((rest ++ [(src, p)]).getD k dflt) = (((src, p) :: rest).getD (k + 1) dflt) := by
        rw [List.getD_append _ _ _ _ hklen]
        simp [List.getD_cons_succ]
      have e2 : List.drop (k + 1) (rest ++ [(src, p)]) ++ List.take k (rest ++ [(src, p)]) =
          List.drop (k + 1 + 1) ((src, p) :: rest) ++ List.take (k + 1) ((src, p) :: rest) := by
        rw [List.drop_append_of_le_length (by omega), List.take_append_of_le_length (by omega)]
        simp [List.drop_succ_cons, List.take_succ_cons]
      rw [e1, e2]

/-- If none of the first `fuel` messages match, `fuel` dequeues are not enough. -/
theorem receiveAux_out_of_fuel {α : Type} (X : Nat) (dflt : Nat × α) :
    ∀ (fuel : Nat) (q : List (Nat × α)),
      (∀ m, m < fuel → (q.getD m dflt).1 ≠ X) → fuel ≤ q.length →
      receiveAux fuel q (X : Int) = none := by
  intro fuel
  induction fuel with
  | zero => intro q _ _; simp [receiveAux]
  | succ f ih =>
    intro q hno hlen
    match q with
    | (src, p) :: rest =>
      have h0 : src ≠ X := by
        have := hno 0 (Nat.succ_pos f)
        simpa [List.getD_cons_zero] using this
      have hne : ¬((X : Int) = -1 ∨ (src : Int) = (X : Int)) := by
        push_neg
        refine ⟨by omega, fun hc => h0 (by exact_mod_cast hc)⟩
      rw [receiveAux, if_neg hne]
      have hflen : f ≤ rest.length := by simpa using Nat.le_of_succ_le_succ hlen
      refine ih (rest ++ [(src, p)]) ?_ (by simp; omega)
      intro m hm
      rw [List.getD_append _ _ _ _ (lt_of_lt_of_le hm hflen)]
      have := hno (m + 1) (Nat.succ_lt_succ hm)
      simpa [List.getD_cons_succ] using this

/-- C10: if the mailbox of `rank` contains a message from source `X` — first at
index `k` — then `receive(rank, source_rank=X)` terminates, with exactly `k`
re-queue recursions (fuel `k+1` dequeues suffice and fuel `k` does not), and
returns the payload of the oldest message from `X` in the mailbox. -/
theorem C10_receive_terminates_oldest_match {α : Type} (q : List (Nat × α)) (X k : Nat)
    (dflt : Nat × α) (hk : k < q.length)
    (hbefore : ∀ m, m < k → (q.getD m dflt).1 ≠ X)
    (hmatch : (q.getD k dflt).1 = X) :
    receive q (X : Int) = some ((q.getD k dflt).2, q.drop (k + 1) ++ q.take k) ∧
      receiveAux k q (X : Int) = none ∧
      srcPayloads X q = (q.getD k dflt).2 :: srcPayloads X (q.drop (k + 1) ++ q.take k) := by
  have h1 : receive q (X : Int) = some ((q.getD k dflt).2, q.drop (k + 1) ++ q.take k) :=
    receiveAux_first_match X dflt k q q.length hk hbefore hmatch hk
  refine ⟨h1, ?_, ?_⟩
  · exact receiveAux_out_of_fuel X dflt k q (fun m hm => hbefore m hm) (le_of_lt hk)
  · exact receiveAux_srcPayloads X q.length q _ _ h1

theorem C10_witness :
    (1 < ([(7, 11), (3, 22)] : List (Nat × Nat)).length) ∧
      receive ([(7, 11), (3, 22)] : List (Nat × Nat)) ((3 : Nat) : Int) =
        some ((([(7, 11), (3, 22)] : List (Nat × Nat)).getD 1 (0, 0)).2,
          ([(7, 11), (3, 22)] : List (Nat × Nat)).drop 2 ++
            ([(7, 11), (3, 22)] : List (Nat × Nat)).take 1) ∧
      receiveAux 1 ([(7, 11), (3, 22)] : List (Nat × Nat)) ((3 : Nat) : Int) = none := by
  refine ⟨by decide, ?_⟩
  have h := C10_receive_terminates_oldest_match ([(7, 11), (3, 22)] : List (Nat × Nat)) 3 1
    (0, 0) (by decide) (by decide) (by decide)
  exact ⟨h.1, h.2.1⟩

/-- C3 (counterexample): with mailbox `[(1,10),(2,20),(1,30)]`, the call
`receive(rank, from=2)` re-queues the skipped message `(1,10)` at the back, so
the remaining queue is `[(1,30),(1,10)]` — not the original relative order
`[(1,10),(1,30)]` — and the two subsequent `receive(rank, from=1)` calls return
`30` before `10`, violating send order for source 1. -/
theorem C3_counterexample :
    receive ([(1, 10), (2, 20), (1, 30)] : List (Nat × Nat)) ((2 : Nat) : Int) =
        some (20, [(1, 30), (1, 10)]) ∧
      ([(1, 30), (1, 10)] : List (Nat × Nat)) ≠ [(1, 10), (1, 30)] ∧
      receive ([(1, 30), (1, 10)] : List (Nat × Nat)) ((1 : Nat) : Int) =
        some (30, [(1, 10)]) ∧
      receive ([(1, 10)] : List (Nat × Nat)) ((1 : Nat) : Int) =
        some (10, ([] : List (Nat × Nat))) := by
  decide

/-- C3 (amended): a selective `receive(rank, from=X)` returns the oldest
message from `X` and keeps the remaining messages **from X** in their original
relative order (skipped messages of other sources are re-queued at the back,
preserving order only among themselves); hence successive
`receive(dest, from=source)` calls — not interleaved with selective receives
for other sources — return that source's messages in send order. -/
theorem C3_selective_receive_source_fifo {α : Type} (q q' : List (Nat × α)) (X : Nat) (d : α)
    (h : receive q (X : Int) = some (d, q')) :
    srcPayloads X q = d :: srcPayloads X q' :=
  receiveAux_srcPayloads X q.length q d q' h

theorem C3_witness :
    receive ([(2, 5), (1, 6)] : List (Nat × Nat)) ((1 : Nat) : Int) = some (6, [(2, 5)]) ∧
      srcPayloads 1 ([(2, 5), (1, 6)] : List (Nat × Nat)) =
        6 :: srcPayloads 1 ([(2, 5)] : List (Nat × Nat)) :=
  ⟨by decide, C3_selective_receive_source_fifo [(2, 5), (1, 6)] [(2, 5)] 1 6 (by decide)⟩

/-! ## numpy 1-D in-place broadcast arithmetic

`a += b` / `a -= b` on 1-D arrays: equal lengths operate elementwise; a
length-1 right operand broadcasts; any other length combination raises a
`ValueError` (modelled as `none`), since the output must keep the shape of
the left operand. -/

def npAddI (a b : List ℚ) : Option (List ℚ) :=
  if a.length = b.length then some (List.zipWith (fun x y => x + y) a b)
  else if b.length = 1 then some (a.map (fun x => x + b.headD 0))
  else none

def npSubI (a b : List ℚ) : Option (List ℚ) :=
  if a.length = b.length then some (List.zipWith (fun x y => x - y) a b)
  else if b.length = 1 then some (a.map (fun x => x - b.headD 0))
  else none

/-! ## `ParameterServer` (lines 268-284)

numpy arrays are heap cells (`heap`, indexed by array id); the `params` dict
maps names to array ids in insertion order.  `get_parameters` performs
`self.params.copy()` — a *shallow* dict copy sharing the array ids — and
`update` performs the in-place `self.params[key] -= lr * gradients[key]` for
each key in insertion order, raising (`Except.error` with the state reached so
far) on a missing gradient key or a non-broadcastable shape; `version` and
`update_count` are incremented only after the loop completes. -/

structure PState where
  heap : List (List ℚ)
  params : List (String × Nat)
  version : Nat
  update_count : Nat
deriving DecidableEq

def psInit (shapes : List (String × Nat)) : PState :=
  { heap := shapes.map (fun p => List.replicate p.2 0),
    params := (shapes.enum).map (fun e => (e.2.1, e.1)),
    version := 0, update_count := 0 }

def get_parameters (ps : PState) : List (String × Nat) × Nat :=
  (ps.params, ps.version)

def psUpdateGo : List (String × Nat) → PState → List (String × List ℚ) → ℚ →
    Except PState PState
  | [], ps, _, _ =>
    Except.ok { ps with version := ps.version + 1, update_count := ps.update_count + 1 }
  | (k, idx) :: rest, ps, grads, lr =>
    match grads.lookup k with
    | none => Except.error ps
    | some gv =>
      match npSubI (ps.heap.getD idx []) (gv.map (fun x => lr * x)) with
      | none => Except.error ps
      | some arr => psUpdateGo rest { ps with heap := ps.heap.set idx arr } grads lr

def psUpdate (ps : PState) (grads : List (String × List ℚ)) (lr : ℚ) : Except PState PState :=
  psUpdateGo ps.params ps grads lr

/-- Dereference a snapshot's name→array-id bindings against a heap. -/
def snapshotArrays (heap : List (List ℚ)) (snap : List (String × Nat)) :
    List (String × List ℚ) :=
  snap.map (fun p => (p.1, heap.getD p.2 []))

/-- A sequence of updates, stopping (`none`) if any update raises. -/
def psRun : PState → List (List (String × List ℚ) × ℚ) → Option PState
  | ps, [] => some ps
  | ps, (g, lr) :: us =>
    match psUpdate ps g lr with
    | Except.ok ps' => psRun ps' us
    | Except.error _ => none

/-- A successful `update` bumps `version` and `update_count` by one and leaves
the name→array-id bindings untouched (arrays are mutated in place). -/
theorem psUpdateGo_ok_meta :
    ∀ (l : List (String × Nat)) (ps : PState) (grads : List (String × List ℚ)) (lr : ℚ)
      (ps' : PState), psUpdateGo l ps grads lr = Except.ok ps' →
      ps'.version = ps.version + 1 ∧ ps'.update_count = ps.update_count + 1 ∧
        ps'.params = ps.params := by
  intro l
  induction l with
  | nil =>
    intro ps grads lr ps' h
    simp [psUpdateGo] at h
    subst h
    exact ⟨rfl, rfl, rfl⟩
  | cons hd rest ih =>
    intro ps grads lr ps' h
    match hd with
    | (k, idx) =>
      rw [psUpdateGo] at h
      split at h
      · simp at h
      · split at h
        · simp at h
        · have hrec := ih _ grads lr ps' h
          exact hrec

theorem psRun_meta :
    ∀ (us : List (List (String × List ℚ) × ℚ)) (ps ps' : PState),
      psRun ps us = some ps' →
      ps'.version = ps.version + us.length ∧
        ps'.update_count = ps.update_count + us.length := by
  intro us
  induction us with
  | nil =>
    intro ps ps' h
    simp [psRun] at h
    subst h
    exact ⟨rfl, rfl⟩
  | cons u rest ih =>
    intro ps ps' h
    match u with
    | (g, lr) =>
      rw [psRun] at h
      match hu : psUpdate ps g lr with
      | Except.error e => rw [hu] at h; exact absurd h (by simp)
      | Except.ok ps1 =>
        rw [hu] at h
        have hm := psUpdateGo_ok_meta ps.params ps g lr ps1 hu
        have := ih ps1 ps' h
        constructor
        · rw [this.1, hm.1]; simp only [List.length_cons]; omega
        · rw [this.2, hm.2.1]; simp only [List.length_cons]; omega

/-- C9: starting from a freshly constructed `ParameterServer`, after any
sequence of `N` successful `update()` calls the store satisfies
`version == N` and `update_count == N`. -/
theorem C9_fresh_server_version_counts (shapes : List (String × Nat))
    (us : List (List (String × List ℚ) × ℚ)) (ps' : PState)
    (h : psRun (psInit shapes) us = some ps') :
    ps'.version = us.length ∧ ps'.update_count = us.length := by
  have h' := psRun_meta us (psInit shapes) ps' h
  simp [psInit] at h'
  exact h'

theorem C9_witness :
    (PState.mk [[-5]] [("W", 0)] 2 2).version = 2 ∧
      (PState.mk [[-5]] [("W", 0)] 2 2).update_count = 2 := by
  have h : psRun (psInit [("W", 1)]) [([("W", [2])], 1), ([("W", [3])], 1)] =
      some (PState.mk [[-5]] [("W", 0)] 2 2) := by
    norm_num [psRun, psUpdate, psUpdateGo, psInit, npSubI, List.enum, List.lookup,
      List.replicate]
  exact C9_fresh_server_version_counts [("W", 1)]
    [([("W", [2])], 1), ([("W", [3])], 1)] (PState.mk [[-5]] [("W", 0)] 2 2) h

/-- C5 (counterexample): `get_parameters` is a *shallow* copy — the snapshot
`[("W", id 0)]` taken from the fresh server dereferences to `[0, 0]` before an
`update`, but to `[-1, -1]` after it: the subsequent `update` call mutates the
named numeric array of the previously returned snapshot in place. -/
theorem C5_counterexample :
    psUpdate (psInit [("W", 2)]) [("W", [1, 1])] 1 =
        Except.ok (PState.mk [[-1, -1]] [("W", 0)] 1 1) ∧
      snapshotArrays (PState.mk [[-1, -1]] [("W", 0)] 1 1).heap
          (get_parameters (psInit [("W", 2)])).1 = [("W", [-1, -1])] ∧
      snapshotArrays (psInit [("W", 2)]).heap (get_parameters (psInit [("W", 2)])).1 =
        [("W", [0, 0])] ∧
      [("W", ([-1, -1] : List ℚ))] ≠ [("W", ([0, 0] : List ℚ))] := by
  refine ⟨?_, ?_, ?_, ?_⟩
  · norm_num [psUpdate, psUpdateGo, psInit, npSubI, List.enum, List.lookup, List.replicate]
  · norm_num [snapshotArrays, psInit, get_parameters, List.enum]
  · norm_num [snapshotArrays, psInit, get_parameters, List.enum, List.replicate]
  · intro h
    have := List.head_eq_of_cons_eq h
    have h2 : ([-1, -1] : List ℚ) = [0, 0] := congrArg Prod.snd this
    have := List.head_eq_of_cons_eq h2
    norm_num at this

/-- C5 (amended): `get_parameters` returns a shallow copy: the snapshot's
name→array-id bindings and its version are fixed, but the named arrays are
aliased with the store, so after a subsequent successful `update` the old
snapshot dereferences to exactly the store's updated arrays (not to the values
it held when taken). -/
theorem C5_snapshot_shallow_copy_aliasing (ps : PState) (grads : List (String × List ℚ))
    (lr : ℚ) (ps' : PState) (h : psUpdate ps grads lr = Except.ok ps') :
    (get_parameters ps).1 = (get_parameters ps').1 ∧
      snapshotArrays ps'.heap (get_parameters ps).1 =
        snapshotArrays ps'.heap (get_parameters ps').1 := by
  have hm := psUpdateGo_ok_meta ps.params ps grads lr ps' h
  refine ⟨?_, ?_⟩
  · simp [get_parameters, hm.2.2]
  · simp [get_parameters, snapshotArrays, hm.2.2]

theorem C5_witness :
    (get_parameters (psInit [("W", 2)])).1 =
        (get_parameters (PState.mk [[-1, -1]] [("W", 0)] 1 1)).1 ∧
      snapshotArrays (PState.mk [[-1, -1]] [("W", 0)] 1 1).heap
          (get_parameters (psInit [("W", 2)])).1 =
        snapshotArrays (PState.mk [[-1, -1]] [("W", 0)] 1 1).heap
          (get_parameters (PState.mk [[-1, -1]] [("W", 0)] 1 1)).1 := by
  have h : psUpdate (psInit [("W", 2)]) [("W", [1, 1])] 1 =
      Except.ok (PState.mk [[-1, -1]] [("W", 0)] 1 1) := by
    norm_num [psUpdate, psUpdateGo, psInit, npSubI, List.enum, List.lookup, List.replicate]
  exact C5_snapshot_shallow_copy_aliasing (psInit [("W", 2)]) [("W", [1, 1])] 1
    (PState.mk [[-1, -1]] [("W", 0)] 1 1) h

/-! ## Federated aggregation (lines 606-609)

`total_samples = sum(client_weights)`;
`global_W = sum(w * model for w, model in zip(client_weights, client_models))
           / total_samples`. -/

def vecAdd (a b : List ℚ) : List ℚ := List.zipWith (fun x y => x + y) a b

def scaleVec (w : Nat) (p : List ℚ) : List ℚ := p.map (fun x => (w : ℚ) * x)

def fed_aggregate_vec (cw : List Nat) (cps : List (List ℚ)) : List ℚ :=
  match List.zipWith scaleVec cw cps with
  | [] => []
  | v :: vs => (vs.foldl vecAdd v).map (fun x => x / ((cw.sum : Nat) : ℚ))

/-- Coordinate `idx` of the sample-count-weighted sum. -/
def weightedCoord (idx : Nat) (w : Nat) (p : List ℚ) : ℚ := (w : ℚ) * p.getD idx 0

theorem zipWith_add_getD :
    ∀ (a b : List ℚ), a.length = b.length → ∀ idx : Nat,
      (List.zipWith (fun x y => x + y) a b).getD idx 0 = a.getD idx 0 + b.getD idx 0 := by
  intro a
  induction a with
  | nil =>
    intro b hb idx
    match b with
    | [] => simp
  | cons x xs ih =>
    intro b hb idx
    match b with
    | y :: ys =>
      match idx with
      | 0 => simp
      | idx + 1 =>
        simp only [List.zipWith_cons_cons, List.getD_cons_succ]
        exact ih ys (by simpa using hb) idx

theorem zipWith_add_length (a b : List ℚ) (h : a.length = b.length) :
    (List.zipWith (fun x y => x + y) a b).length = a.length := by
  simp [List.length_zipWith, h]

theorem map_div_getD (t : ℚ) :
    ∀ (p : List ℚ) (idx : Nat),
      (p.map (fun x => x / t)).getD idx 0 = p.getD idx 0 / t := by
  intro p
  induction p with
  | nil => intro idx; simp
  | cons x xs ih =>
    intro idx
    match idx with
    | 0 => simp
    | idx + 1 => simpa using ih idx

theorem scaleVec_getD (w : Nat) :
    ∀ (p : List ℚ) (idx : Nat), (scaleVec w p).getD idx 0 = weightedCoord idx w p := by
  intro p
  induction p with
  | nil => intro idx; simp [scaleVec, weightedCoord]
  | cons x xs ih =>
    intro idx
    match idx with
    | 0 => simp [scaleVec, weightedCoord]
    | idx + 1 => simpa [scaleVec, weightedCoord] using ih idx

theorem foldl_vecAdd_spec :
    ∀ (vs : List (List ℚ)) (v : List ℚ) (L : Nat), v.length = L →
      (∀ u ∈ vs, u.length = L) →
      (vs.foldl vecAdd v).length = L ∧
        ∀ idx : Nat, (vs.foldl vecAdd v).getD idx 0 =
          v.getD idx 0 + (vs.map (fun u => u.getD idx 0)).sum := by
  intro vs
  induction vs with
  | nil => intro v L hv _; exact ⟨hv, by simp⟩
  | cons u us ih =>
    intro v L hv hmem
    have hu : u.length = L := hmem u (List.mem_cons_self u us)
    have hlen : (vecAdd v u).length = L := by
      rw [vecAdd, zipWith_add_length v u (by rw [hv, hu])]; exact hv
    have hrec := ih (vecAdd v u) L hlen (fun x hx => hmem x (List.mem_cons_of_mem u hx))
    refine ⟨hrec.1, fun idx => ?_⟩
    rw [List.foldl_cons, hrec.2 idx, vecAdd, zipWith_add_getD v u (by rw [hv, hu])]
    simp [add_assoc]

theorem map_getD_zipWith_scale :
    ∀ (cw : List Nat) (cps : List (List ℚ)) (idx : Nat),
      (List.zipWith scaleVec cw cps).map (fun u => u.getD idx 0) =
        List.zipWith (weightedCoord idx) cw cps := by
  intro cw
  induction cw with
  | nil => intro cps idx; simp
  | cons w ws ih =>
    intro cps idx
    match cps with
    | [] => simp
    | p :: ps =>
      simp only [List.zipWith_cons_cons, List.map_cons, scaleVec_getD]
      rw [ih ps idx]

theorem mem_zipWith_scale :
    ∀ (cw : List Nat) (cps : List (List ℚ)) (u : List ℚ),
      u ∈ List.zipWith scaleVec cw cps →
      ∃ w p, p ∈ cps ∧ u = scaleVec w p := by
  intro cw
  induction cw with
  | nil => intro cps u h; simp at h
  | cons w ws ih =>
    intro cps u h
    match cps with
    | [] => simp at h
    | p :: ps =>
      simp only [List.zipWith_cons_cons, List.mem_cons] at h
      rcases h with h | h
      · exact ⟨w, p, List.mem_cons_self p ps, h⟩
      · obtain ⟨w2, p2, hp2, hu2⟩ := ih ps u h
        exact ⟨w2, p2, List.mem_cons_of_mem p hp2, hu2⟩

/-- C8: in every federated communication round the aggregated global
parameters equal the sample-count-weighted mean of the locally trained client
parameters: coordinate `idx` of the aggregate is
`Σ (weight_i · params_i[idx]) / Σ weight_i`. -/
theorem C8_federated_weighted_mean (cw : List Nat) (cps : List (List ℚ)) (L : Nat)
    (hL : ∀ p ∈ cps, p.length = L) (idx : Nat) :
    (fed_aggregate_vec cw cps).getD idx 0 =
      (List.zipWith (weightedCoord idx) cw cps).sum / ((cw.sum : Nat) : ℚ) := by
  match hz : List.zipWith scaleVec cw cps with
  | [] =>
    have h1 : (List.zipWith scaleVec cw cps).length = 0 := by rw [hz]; rfl
    rw [List.length_zipWith] at h1
    have h2 : (List.zipWith (weightedCoord idx) cw cps).length = 0 := by
      rw [List.length_zipWith]; omega
    simp only [fed_aggregate_vec, hz, List.length_eq_zero.mp h2]
    simp
  | v :: vs =>
    have hmem : ∀ u ∈ v :: vs, u.length = L := by
      intro u hu
      rw [← hz] at hu
      obtain ⟨w, p, hp, hup⟩ := mem_zipWith_scale cw cps u hu
      rw [hup, scaleVec, List.length_map]
      exact hL p hp
    have hfold := foldl_vecAdd_spec vs v L (hmem v (List.mem_cons_self v vs))
      (fun u hu => hmem u (List.mem_cons_of_mem v hu))
    have hsum : v.getD idx 0 + (vs.map (fun u => u.getD idx 0)).sum =
        (List.zipWith (weightedCoord idx) cw cps).sum := by
      rw [← map_getD_zipWith_scale cw cps idx, hz, List.map_cons, List.sum_cons]
    simp only [fed_aggregate_vec, hz]
    rw [map_div_getD, hfold.2 idx, hsum]

theorem C8_witness :
    (fed_aggregate_vec [3, 1] [[2], [10]]).getD 0 0 =
        (List.zipWith (weightedCoord 0) [3, 1] [[2], [10]]).sum /
          ((([3, 1] : List Nat).sum : Nat) : ℚ) ∧
      (List.zipWith (weightedCoord 0) [3, 1] [[2], [10]]).sum /
          ((([3, 1] : List Nat).sum : Nat) : ℚ) = 4 := by
  constructor
  · exact C8_federated_weighted_mean [3, 1] [[2], [10]] 1 (by decide) 0
  · norm_num [weightedCoord]

/-! ## Data-parallel coordinator (lines 147-181)

Each round: every worker computes a local gradient (the numeric kernel `kern`,
out of scope per the spec), the coordinator averages them elementwise
(`np.mean` across workers), and *every* worker applies the same averaged
gradient (`apply_gradients`: `param -= lr * grad`). -/

def dpAvgGrad (W : Nat) (g : Nat → Nat → ℚ) : Nat → ℚ :=
  fun i => (∑ s in Finset.range W, g s i) / (W : ℚ)

def applyGradients (lr : ℚ) (grad p : Nat → ℚ) : Nat → ℚ :=
  fun i => p i - lr * grad i

def dpRound (W : Nat) (lr : ℚ) (kern : Nat → (Nat → ℚ) → Nat → ℚ)
    (p : Nat → Nat → ℚ) : Nat → Nat → ℚ :=
  fun r => applyGradients lr (dpAvgGrad W (fun s => kern s (p s))) (p r)

def dpRun (W : Nat) (lr : ℚ) (kern : Nat → (Nat → ℚ) → Nat → ℚ)
    (p0 : Nat → Nat → ℚ) : Nat → Nat → Nat → ℚ
  | 0 => p0
  | t + 1 => dpRound W lr kern (dpRun W lr kern p0 t)

/-- C2 (code-bug evidence): every round applies the *same* averaged gradient
to every worker, so the difference between any two workers' parameters is
invariant across all rounds — it equals the difference of their initial
parameters at every synchronization point.  The code draws independent random
initial weights per worker (`SimpleNeuralNet(...)` once per rank, despite the
"Initialize identical models for all workers" comment at line 147), so with
distinct initializations the workers' parameter vectors are never identical
after any round, contradicting the claimed invariant; with identical
initialization the same equation shows they would coincide forever. -/
theorem C2_worker_difference_invariant (W : Nat) (lr : ℚ)
    (kern : Nat → (Nat → ℚ) → Nat → ℚ) (p0 : Nat → Nat → ℚ) (t r r' i : Nat) :
    dpRun W lr kern p0 t r i - dpRun W lr kern p0 t r' i = p0 r i - p0 r' i := by
  induction t with
  | zero => rfl
  | succ t ih =>
    simp only [dpRun, dpRound, applyGradients]
    have h : ∀ a b c : ℚ, a - c - (b - c) = a - b := by intro a b c; ring
    rw [h]
    exact ih

/-! ## Ring all-reduce (lines 429-462)

`chunk_size = gradient_size // world_size`; chunk `j` spans
`[j*chunk_size, (j+1)*chunk_size)` except the last chunk, which absorbs the
remainder.  Phase 1 (reduce-scatter): for `step` in `0..W-2`, each `rank` in
`0..W-1` (sequentially, in place) adds, to its chunk
`(rank - step) mod W`, the same chunk of rank `(rank-1) mod W`.  Phase 2
(all-gather): same loop shape, overwriting chunk `(rank - step + 1) mod W`
with the value held by rank `(rank-1) mod W`.  State is a rank-indexed family
of vectors `Nat → Nat → ℚ` (rank, position). -/

def recvFrom (W r : Nat) : Nat := (r + W - 1) % W

def chunkStart (W n j : Nat) : Nat := j * (n / W)

def chunkEnd (W n j : Nat) : Nat := if j < W - 1 then (j + 1) * (n / W) else n

def chunkIdx1 (W r s : Nat) : Nat := (r + W - s) % W

def chunkIdx2 (W r s : Nat) : Nat := (r + 1 + W - s) % W

def inChunk (W n j i : Nat) : Prop := chunkStart W n j ≤ i ∧ i < chunkEnd W n j

instance inChunk_decidable (W n j i : Nat) : Decidable (inChunk W n j i) := by
  unfold inChunk; infer_instance

def sliceAddOne (W n s r : Nat) (A : Nat → Nat → ℚ) : Nat → Nat → ℚ :=
  fun r2 i =>
    if r2 = r ∧ inChunk W n (chunkIdx1 W r s) i then A r i + A (recvFrom W r) i
    else A r2 i

def p1step (W n s : Nat) (A : Nat → Nat → ℚ) : Nat → Nat → ℚ :=
  (List.range W).foldl (fun B r => sliceAddOne W n s r B) A

def phase1 (W n : Nat) (A : Nat → Nat → ℚ) : Nat → Nat → ℚ :=
  (List.range (W - 1)).foldl (fun B s => p1step W n s B) A

def sliceCopyOne (W n s r : Nat) (A : Nat → Nat → ℚ) : Nat → Nat → ℚ :=
  fun r2 i =>
    if r2 = r ∧ inChunk W n (chunkIdx2 W r s) i then A (recvFrom W r) i
    else A r2 i

def p2step (W n s : Nat) (A : Nat → Nat → ℚ) : Nat → Nat → ℚ :=
  (List.range W).foldl (fun B r => sliceCopyOne W n s r B) A

def phase2 (W n : Nat) (A : Nat → Nat → ℚ) : Nat → Nat → ℚ :=
  (List.range (W - 1)).foldl (fun B s => p2step W n s B) A

def ringAllReduce (W n : Nat) (g : Nat → Nat → ℚ) : Nat → Nat → ℚ :=
  phase2 W n (phase1 W n g)

/-! ### Modular index arithmetic -/

theorem mod_eval (W t : Nat) (ht : t < 3 * W) :
    t % W = if t < W then t else if t < 2 * W then t - W else t - 2 * W := by
  split_ifs with h1 h2
  · exact Nat.mod_eq_of_lt h1
  · rw [Nat.mod_eq_sub_mod (by omega)]
    exact Nat.mod_eq_of_lt (by omega)
  · rw [Nat.mod_eq_sub_mod (by omega), Nat.mod_eq_sub_mod (by omega)]
    have h : t - W - W = t - 2 * W := by omega
    rw [h]
    exact Nat.mod_eq_of_lt (by omega)

theorem mod_shift_left (W a j : Nat) (hW : 0 < W) (hj : j ≤ W) :
    (a % W + W - j) % W = (a + W - j) % W := by
  have h1 := Nat.div_add_mod a W
  have h2 : a + W - j = (a % W + W - j) + W * (a / W) := by omega
  rw [h2, Nat.add_mul_mod_self_left]

theorem modsub_symm (W r s j : Nat) (hr : r < W) (hs : s < W) (hj : j < W) :
    (r + W - s) % W = j ↔ (r + W - j) % W = s := by
  rw [mod_eval W (r + W - s) (by omega), mod_eval W (r + W - j) (by omega)]
  split_ifs <;> omega

theorem modsub_symm_gen (W a s j : Nat) (hW : 0 < W) (hs : s < W) (hj : j < W) :
    (a + W - s) % W = j ↔ (a + W - j) % W = s := by
  rw [← mod_shift_left W a s hW (by omega), ← mod_shift_left W a j hW (by omega)]
  exact modsub_symm W (a % W) s j (Nat.mod_lt _ hW) hs hj

theorem mod_add_one (W a : Nat) (hW : 0 < W) : (a % W + 1) % W = (a + 1) % W := by
  have h1 : a % W + 1 = a % W + W - (W - 1) := by omega
  have h2 : a + 1 = a + W - (W - 1) := by omega
  rw [h1, h2]
  exact mod_shift_left W a (W - 1) hW (by omega)

theorem dshift (W r j : Nat) (hW : 0 < W) (hj : j < W) :
    (recvFrom W r + W - j) % W = ((r + W - j) % W + W - 1) % W := by
  unfold recvFrom
  rw [mod_shift_left W (r + W - 1) j hW (by omega)]
  rw [mod_shift_left W (r + W - j) 1 hW (by omega)]
  congr 1
  omega

/-! ### Chunk geometry -/

theorem chunkEnd_le (W n j : Nat) (hW : 0 < W) : chunkEnd W n j ≤ n := by
  unfold chunkEnd
  split_ifs with h
  · calc (j + 1) * (n / W) ≤ W * (n / W) := Nat.mul_le_mul_right _ (by omega)
      _ ≤ n := by rw [Nat.mul_comm]; exact Nat.div_mul_le_self n W
  · exact le_rfl

theorem chunk_disjoint_lt (W n j j2 i : Nat) (hlt : j < j2) (hj2 : j2 < W)
    (h1 : inChunk W n j i) (h2 : inChunk W n j2 i) : False := by
  have hj1 : j < W - 1 := by omega
  have hend : chunkEnd W n j = (j + 1) * (n / W) := by
    unfold chunkEnd; rw [if_pos hj1]
  have hmul : (j + 1) * (n / W) ≤ j2 * (n / W) := Nat.mul_le_mul_right _ (by omega)
  have ha := h1.2
  have hb := h2.1
  rw [hend] at ha
  unfold chunkStart at hb
  omega

theorem chunk_disjoint (W n j j2 i : Nat) (hj : j < W) (hj2 : j2 < W) (hne : j ≠ j2)
    (h1 : inChunk W n j i) (h2 : inChunk W n j2 i) : False := by
  rcases Nat.lt_or_ge j j2 with h | h
  · exact chunk_disjoint_lt W n j j2 i h hj2 h1 h2
  · exact chunk_disjoint_lt W n j2 j i (by omega) hj h2 h1

theorem chunk_cover (W n i : Nat) (hW : 0 < W) (hi : i < n) :
    ∃ j, j < W ∧ inChunk W n j i := by
  by_cases hc : n / W = 0
  · refine ⟨W - 1, by omega, ?_, ?_⟩
    · unfold chunkStart; rw [hc]; simp
    · unfold chunkEnd; rw [if_neg (by omega)]; exact hi
  · have hc0 : 0 < n / W := Nat.pos_of_ne_zero hc
    by_cases hbig : (W - 1) * (n / W) ≤ i
    · refine ⟨W - 1, by omega, hbig, ?_⟩
      unfold chunkEnd; rw [if_neg (by omega)]; exact hi
    · push_neg at hbig
      have hc1 : i / (n / W) < W - 1 := by
        rw [Nat.div_lt_iff_lt_mul hc0]
        exact hbig
      refine ⟨i / (n / W), by omega, ?_, ?_⟩
      · unfold chunkStart
        exact Nat.div_mul_le_self i (n / W)
      · have hq := Nat.div_add_mod i (n / W)
        have hr := Nat.mod_lt i hc0
        unfold chunkEnd
        rw [if_pos hc1, Nat.succ_mul, Nat.mul_comm (i / (n / W)) (n / W)]
        omega

theorem recvFrom_lt (W r : Nat) (hW : 0 < W) : recvFrom W r < W := Nat.mod_lt _ hW

theorem chunkIdx1_lt (W r s : Nat) (hW : 0 < W) : chunkIdx1 W r s < W := Nat.mod_lt _ hW

theorem chunkIdx2_lt (W r s : Nat) (hW : 0 < W) : chunkIdx2 W r s < W := Nat.mod_lt _ hW

theorem recvFrom_pred (W r : Nat) (h1 : 1 ≤ r) (h2 : r ≤ W) : recvFrom W r = r - 1 := by
  unfold recvFrom
  rw [mod_eval W (r + W - 1) (by omega)]
  split_ifs <;> omega

theorem chunkIdx1_pred_ne (W r s : Nat) (hW : 2 ≤ W) (h1 : 1 ≤ r) (hr : r < W)
    (hs : s < W) : chunkIdx1 W r s ≠ chunkIdx1 W (r - 1) s := by
  unfold chunkIdx1
  rw [mod_eval W (r + W - s) (by omega), mod_eval W (r - 1 + W - s) (by omega)]
  split_ifs <;> omega

theorem chunkIdx2_pred_ne (W r s : Nat) (hW : 2 ≤ W) (h1 : 1 ≤ r) (hr : r < W)
    (hs : s < W) : chunkIdx2 W r s ≠ chunkIdx2 W (r - 1) s := by
  unfold chunkIdx2
  rw [mod_eval W (r + 1 + W - s) (by omega), mod_eval W (r - 1 + 1 + W - s) (by omega)]
  split_ifs <;> omega

/-- The sequential in-place sweep over ranks `0..q-1` of one reduce-scatter
step equals the simultaneous update: rank `r2` reads its predecessor's chunk
before the predecessor overwrites this step (the predecessor writes a
*different* chunk), so no within-step interference occurs. -/
theorem p1step_partial (W n s : Nat) (A : Nat → Nat → ℚ) (hW : 2 ≤ W) (hs : s < W) :
    ∀ q, q ≤ W →
      (List.range q).foldl (fun B r => sliceAddOne W n s r B) A =
        fun r2 i =>
          if r2 < q ∧ inChunk W n (chunkIdx1 W r2 s) i
          then A r2 i + A (recvFrom W r2) i
          else A r2 i := by
  intro q
  induction q with
  | zero =>
    intro _
    funext r2 i
    simp
  | succ q ih =>
    intro hq
    rw [List.range_succ, List.foldl_append, ih (by omega), List.foldl_cons, List.foldl_nil]
    funext r2 i
    simp only [sliceAddOne]
    by_cases h1 : r2 = q ∧ inChunk W n (chunkIdx1 W q s) i
    · have he := h1.1
      have hmem0 := h1.2
      subst he
      have hmem : inChunk W n (chunkIdx1 W r2 s) i := hmem0
      have hnb : ¬(recvFrom W r2 < r2 ∧ inChunk W n (chunkIdx1 W (recvFrom W r2) s) i) := by
        rintro ⟨hlt, hmem2⟩
        have hr1 : 1 ≤ r2 := by omega
        have hrW : r2 < W := by omega
        rw [recvFrom_pred W r2 hr1 (by omega)] at hmem2
        exact chunk_disjoint W n (chunkIdx1 W r2 s) (chunkIdx1 W (r2 - 1) s) i
          (chunkIdx1_lt W r2 s (by omega)) (chunkIdx1_lt W (r2 - 1) s (by omega))
          (chunkIdx1_pred_ne W r2 s hW hr1 hrW hs) hmem hmem2
      have hc1 : r2 = r2 ∧ inChunk W n (chunkIdx1 W r2 s) i := ⟨rfl, hmem⟩
      have hc2 : r2 < r2 + 1 ∧ inChunk W n (chunkIdx1 W r2 s) i :=
        ⟨Nat.lt_succ_self r2, hmem⟩
      rw [if_pos hc1, if_pos hc2, if_neg (by simp), if_neg hnb]
    · rw [if_neg h1]
      by_cases h2 : r2 < q ∧ inChunk W n (chunkIdx1 W r2 s) i
      · have hc : r2 < q + 1 ∧ inChunk W n (chunkIdx1 W r2 s) i := ⟨by omega, h2.2⟩
        rw [if_pos h2, if_pos hc]
      · have hnb2 : ¬(r2 < q + 1 ∧ inChunk W n (chunkIdx1 W r2 s) i) := by
          rintro ⟨hlt, hmem⟩
          rcases Nat.lt_or_ge r2 q with hx | hx
          · exact h2 ⟨hx, hmem⟩
          · have hx2 : r2 = q := by omega
            subst hx2
            exact h1 ⟨rfl, hmem⟩
        rw [if_neg h2, if_neg hnb2]

theorem p1step_eq (W n s : Nat) (A : Nat → Nat → ℚ) (hW : 2 ≤ W) (hs : s < W) :
    p1step W n s A = fun r2 i =>
      if r2 < W ∧ inChunk W n (chunkIdx1 W r2 s) i then A r2 i + A (recvFrom W r2) i
      else A r2 i := by
  unfold p1step
  exact p1step_partial W n s A hW hs W le_rfl

/-- Same sequential-equals-simultaneous fact for the all-gather sweep. -/
theorem p2step_partial (W n s : Nat) (A : Nat → Nat → ℚ) (hW : 2 ≤ W) (hs : s < W) :
    ∀ q, q ≤ W →
      (List.range q).foldl (fun B r => sliceCopyOne W n s r B) A =
        fun r2 i =>
          if r2 < q ∧ inChunk W n (chunkIdx2 W r2 s) i
          then A (recvFrom W r2) i
          else A r2 i := by
  intro q
  induction q with
  | zero =>
    intro _
    funext r2 i
    simp
  | succ q ih =>
    intro hq
    rw [List.range_succ, List.foldl_append, ih (by omega), List.foldl_cons, List.foldl_nil]
    funext r2 i
    simp only [sliceCopyOne]
    by_cases h1 : r2 = q ∧ inChunk W n (chunkIdx2 W q s) i
    · have he := h1.1
      have hmem0 := h1.2
      subst he
      have hmem : inChunk W n (chunkIdx2 W r2 s) i := hmem0
      have hnb : ¬(recvFrom W r2 < r2 ∧ inChunk W n (chunkIdx2 W (recvFrom W r2) s) i) := by
        rintro ⟨hlt, hmem2⟩
        have hr1 : 1 ≤ r2 := by omega
        have hrW : r2 < W := by omega
        rw [recvFrom_pred W r2 hr1 (by omega)] at hmem2
        exact chunk_disjoint W n (chunkIdx2 W r2 s) (chunkIdx2 W (r2 - 1) s) i
          (chunkIdx2_lt W r2 s (by omega)) (chunkIdx2_lt W (r2 - 1) s (by omega))
          (chunkIdx2_pred_ne W r2 s hW hr1 hrW hs) hmem hmem2
      have hc1 : r2 = r2 ∧ inChunk W n (chunkIdx2 W r2 s) i := ⟨rfl, hmem⟩
      have hc2 : r2 < r2 + 1 ∧ inChunk W n (chunkIdx2 W r2 s) i :=
        ⟨Nat.lt_succ_self r2, hmem⟩
      rw [if_pos hc1, if_pos hc2, if_neg hnb]
    · rw [if_neg h1]
      by_cases h2 : r2 < q ∧ inChunk W n (chunkIdx2 W r2 s) i
      · have hc : r2 < q + 1 ∧ inChunk W n (chunkIdx2 W r2 s) i := ⟨by omega, h2.2⟩
        rw [if_pos h2, if_pos hc]
      · have hnb2 : ¬(r2 < q + 1 ∧ inChunk W n (chunkIdx2 W r2 s) i) := by
          rintro ⟨hlt, hmem⟩
          rcases Nat.lt_or_ge r2 q with hx | hx
          · exact h2 ⟨hx, hmem⟩
          · have hx2 : r2 = q := by omega
            subst hx2
            exact h1 ⟨rfl, hmem⟩
        rw [if_neg h2, if_neg hnb2]

theorem p2step_eq (W n s : Nat) (A : Nat → Nat → ℚ) (hW : 2 ≤ W) (hs : s < W) :
    p2step W n s A = fun r2 i =>
      if r2 < W ∧ inChunk W n (chunkIdx2 W r2 s) i then A (recvFrom W r2) i
      else A r2 i := by
  unfold p2step
  exact p2step_partial W n s A hW hs W le_rfl

/-- Sum of the contributions of ranks `r, r-1, ..., r-k+1` (cyclically) at
position `i`. -/
def windowSum (W : Nat) (g : Nat → Nat → ℚ) (r k i : Nat) : ℚ :=
  ∑ t ∈ Finset.range k, g ((r + W - t) % W) i

theorem windowSum_one (W : Nat) (g : Nat → Nat → ℚ) (r i : Nat) (hr : r < W) :
    windowSum W g r 1 i = g r i := by
  unfold windowSum
  rw [Finset.sum_range_one]
  congr 2
  simp only [Nat.sub_zero]
  rw [Nat.add_mod_right]
  exact Nat.mod_eq_of_lt hr

theorem windowSum_two (W : Nat) (g : Nat → Nat → ℚ) (r i : Nat) (hr : r < W) :
    windowSum W g r 2 i = g r i + g (recvFrom W r) i := by
  unfold windowSum
  rw [Finset.sum_range_succ, Finset.sum_range_one]
  have h0 : (r + W - 0) % W = r := by
    simp only [Nat.sub_zero]
    rw [Nat.add_mod_right]
    exact Nat.mod_eq_of_lt hr
  rw [h0]
  rfl

theorem windowSum_succ (W : Nat) (g : Nat → Nat → ℚ) (r k i : Nat)
    (hW : 0 < W) (hr : r < W) (hk : k ≤ W) :
    windowSum W g r (k + 1) i = g r i + windowSum W g (recvFrom W r) k i := by
  unfold windowSum
  rw [Finset.sum_range_succ']
  have h0 : (r + W - 0) % W = r := by
    simp only [Nat.sub_zero]
    rw [Nat.add_mod_right]
    exact Nat.mod_eq_of_lt hr
  rw [h0, add_comm]
  congr 1
  apply Finset.sum_congr rfl
  intro t ht
  simp only [Finset.mem_range] at ht
  congr 1
  have h1 : (recvFrom W r + W - t) % W = (r + W - 1 + W - t) % W := by
    unfold recvFrom
    exact mod_shift_left W (r + W - 1) t hW (by omega)
  have h2 : r + W - 1 + W - t = (r + W - (t + 1)) + W := by omega
  rw [h1, h2, Nat.add_mod_right]

theorem windowSum_full (W : Nat) (g : Nat → Nat → ℚ) (r i : Nat) (hW : 0 < W)
    (hr : r < W) :
    windowSum W g r W i = ∑ k ∈ Finset.range W, g k i := by
  unfold windowSum
  apply Finset.sum_nbij' (fun t => (r + W - t) % W) (fun k => (r + W - k) % W)
  · intro a ha
    simp only [Finset.mem_range] at ha ⊢
    exact Nat.mod_lt _ hW
  · intro a ha
    simp only [Finset.mem_range] at ha ⊢
    exact Nat.mod_lt _ hW
  · intro a ha
    simp only [Finset.mem_range] at ha
    exact (modsub_symm W r a ((r + W - a) % W) hr ha (Nat.mod_lt _ hW)).mp rfl
  · intro a ha
    simp only [Finset.mem_range] at ha
    exact (modsub_symm W r a ((r + W - a) % W) hr ha (Nat.mod_lt _ hW)).mp rfl
  · intro a _
    rfl

theorem p1step_apply (W n s : Nat) (A : Nat → Nat → ℚ) (hW : 2 ≤ W) (hs : s < W)
    (r2 i : Nat) :
    p1step W n s A r2 i =
      if r2 < W ∧ inChunk W n (chunkIdx1 W r2 s) i then A r2 i + A (recvFrom W r2) i
      else A r2 i := by
  rw [p1step_eq W n s A hW hs]

theorem p2step_apply (W n s : Nat) (A : Nat → Nat → ℚ) (hW : 2 ≤ W) (hs : s < W)
    (r2 i : Nat) :
    p2step W n s A r2 i =
      if r2 < W ∧ inChunk W n (chunkIdx2 W r2 s) i then A (recvFrom W r2) i
      else A r2 i := by
  rw [p2step_eq W n s A hW hs]

theorem inChunk_idx1_iff (W n j i s r : Nat) (hW : 2 ≤ W) (hj : j < W)
    (hmem : inChunk W n j i) (hs : s < W) (hr : r < W) :
    inChunk W n (chunkIdx1 W r s) i ↔ (r + W - j) % W = s := by
  constructor
  · intro h
    have hlt := chunkIdx1_lt W r s (by omega)
    have heq : chunkIdx1 W r s = j := by
      by_contra hne
      exact chunk_disjoint W n (chunkIdx1 W r s) j i hlt hj hne h hmem
    exact (modsub_symm W r s j hr hs hj).mp heq
  · intro h
    have heq : chunkIdx1 W r s = j := (modsub_symm W r s j hr hs hj).mpr h
    rw [heq]
    exact hmem

theorem inChunk_idx2_iff (W n j i s r : Nat) (hW : 2 ≤ W) (hj : j < W)
    (hmem : inChunk W n j i) (hs : s < W) (hr : r < W) :
    inChunk W n (chunkIdx2 W r s) i ↔ (r + 1 + W - j) % W = s := by
  constructor
  · intro h
    have hlt := chunkIdx2_lt W r s (by omega)
    have heq : chunkIdx2 W r s = j := by
      by_contra hne
      exact chunk_disjoint W n (chunkIdx2 W r s) j i hlt hj hne h hmem
    exact (modsub_symm_gen W (r + 1) s j (by omega) hs hj).mp heq
  · intro h
    have heq : chunkIdx2 W r s = j := (modsub_symm_gen W (r + 1) s j (by omega) hs hj).mpr h
    rw [heq]
    exact hmem

/-- Reduce-scatter invariant: after `s` steps, the accumulation at position
`i` (lying in chunk `j`) of rank `r` covers the cyclic window of
`(r + W - j) % W + 2` ranks ending at `r` if rank `r` has already touched
chunk `j` (it does so exactly at step `(r + W - j) % W`), and is still the
initial gradient otherwise. -/
theorem phase1_inv (W n : Nat) (g : Nat → Nat → ℚ) (j i : Nat)
    (hW : 2 ≤ W) (hj : j < W) (hmem : inChunk W n j i) :
    ∀ s, s ≤ W - 1 → ∀ r, r < W →
      (List.range s).foldl (fun B s2 => p1step W n s2 B) g r i =
        if (r + W - j) % W < s then windowSum W g r ((r + W - j) % W + 2) i
        else g r i := by
  intro s
  induction s with
  | zero =>
    intro _ r hr
    simp
  | succ s ih =>
    intro hs r hr
    rw [List.range_succ, List.foldl_append, List.foldl_cons, List.foldl_nil]
    have hsW : s < W := by omega
    rw [p1step_apply W n s _ hW hsW r i]
    have hmemiff := inChunk_idx1_iff W n j i s r hW hj hmem hsW hr
    by_cases hds : (r + W - j) % W = s
    · have hcm : inChunk W n (chunkIdx1 W r s) i := hmemiff.mpr hds
      rw [if_pos ⟨hr, hcm⟩]
      have hBr := ih (by omega) r hr
      rw [hBr, if_neg (by omega)]
      have hrf : recvFrom W r < W := recvFrom_lt W r (by omega)
      have hBrf := ih (by omega) (recvFrom W r) hrf
      have hdrf : (recvFrom W r + W - j) % W = (s + W - 1) % W := by
        rw [dshift W r j (by omega) hj, hds]
      rcases Nat.eq_zero_or_pos s with h0 | h0
      · subst h0
        have hdrf2 : (recvFrom W r + W - j) % W = W - 1 := by
          rw [hdrf]
          have he : 0 + W - 1 = W - 1 := by omega
          rw [he]
          exact Nat.mod_eq_of_lt (by omega)
        rw [hBrf, hdrf2, if_neg (by omega), if_pos (by omega), hds]
        show g r i + g (recvFrom W r) i = windowSum W g r 2 i
        exact (windowSum_two W g r i hr).symm
      · have hdrf2 : (recvFrom W r + W - j) % W = s - 1 := by
          rw [hdrf, mod_eval W (s + W - 1) (by omega)]
          split_ifs <;> omega
        rw [hBrf, hdrf2, if_pos (by omega), if_pos (by omega), hds]
        have e1 : s - 1 + 2 = s + 1 := by omega
        rw [e1]
        show g r i + windowSum W g (recvFrom W r) (s + 1) i = windowSum W g r (s + 1 + 1) i
        exact (windowSum_succ W g r (s + 1) i (by omega) hr (by omega)).symm
    · have hnm : ¬(r < W ∧ inChunk W n (chunkIdx1 W r s) i) := by
        rintro ⟨_, hcm⟩
        exact hds (hmemiff.mp hcm)
      rw [if_neg hnm]
      have hBr := ih (by omega) r hr
      rw [hBr]
      by_cases hlt : (r + W - j) % W < s
      · rw [if_pos hlt, if_pos (by omega)]
      · rw [if_neg hlt, if_neg (by omega)]

theorem phase1_eval (W n : Nat) (g : Nat → Nat → ℚ) (j i : Nat)
    (hW : 2 ≤ W) (hj : j < W) (hmem : inChunk W n j i) (r : Nat) (hr : r < W) :
    phase1 W n g r i =
      if (r + W - j) % W < W - 1 then windowSum W g r ((r + W - j) % W + 2) i
      else g r i := by
  unfold phase1
  exact phase1_inv W n g j i hW hj hmem (W - 1) le_rfl r hr

theorem e_eq (W r j : Nat) (hW : 0 < W) (hj : j < W) :
    (r + 1 + W - j) % W = ((r + W - j) % W + 1) % W := by
  have h1 : r + 1 + W - j = (r + W - j) + 1 := by omega
  rw [h1, ← mod_add_one W (r + W - j) hW]

theorem e_recvFrom (W r j : Nat) (hW : 0 < W) (hj : j < W) :
    (recvFrom W r + 1 + W - j) % W = (r + W - j) % W := by
  have h1 : recvFrom W r + 1 + W - j = (recvFrom W r + W - j) + 1 := by omega
  rw [h1, ← mod_add_one W (recvFrom W r + W - j) hW, dshift W r j hW hj,
      mod_add_one W ((r + W - j) % W + W - 1) hW]
  have h2 : (r + W - j) % W + W - 1 + 1 = (r + W - j) % W + W := by omega
  rw [h2, Nat.add_mod_right]
  exact Nat.mod_eq_of_lt (Nat.mod_lt _ hW)

/-- All-gather invariant: after `s` steps, rank `r` holds the full sum at
position `i` (in chunk `j`) iff `(r + 1 + W - j) % W < s`; the other ranks
still hold their reduce-scatter value. -/
theorem phase2_inv (W n : Nat) (g : Nat → Nat → ℚ) (j i : Nat)
    (hW : 2 ≤ W) (hj : j < W) (hmem : inChunk W n j i) :
    ∀ s, s ≤ W - 1 → ∀ r, r < W →
      (List.range s).foldl (fun B s2 => p2step W n s2 B) (phase1 W n g) r i =
        if (r + 1 + W - j) % W < s then ∑ k ∈ Finset.range W, g k i
        else phase1 W n g r i := by
  intro s
  induction s with
  | zero => intro _ r hr; simp
  | succ s ih =>
    intro hs r hr
    rw [List.range_succ, List.foldl_append, List.foldl_cons, List.foldl_nil]
    have hsW : s < W := by omega
    rw [p2step_apply W n s _ hW hsW r i]
    have hmemiff := inChunk_idx2_iff W n j i s r hW hj hmem hsW hr
    by_cases hds : (r + 1 + W - j) % W = s
    · have hcm : inChunk W n (chunkIdx2 W r s) i := hmemiff.mpr hds
      rw [if_pos ⟨hr, hcm⟩, if_pos (by omega)]
      have hrf : recvFrom W r < W := recvFrom_lt W r (by omega)
      have hBrf := ih (by omega) (recvFrom W r) hrf
      have herf : (recvFrom W r + 1 + W - j) % W = (r + W - j) % W :=
        e_recvFrom W r j (by omega) hj
      have hd : (r + W - j) % W < W := Nat.mod_lt _ (by omega)
      have hee := e_eq W r j (by omega) hj
      by_cases hcase : (r + W - j) % W < W - 1
      · have hs_eq : s = (r + W - j) % W + 1 := by
          rw [← hds, hee]
          exact Nat.mod_eq_of_lt (by omega)
        have hlt : (recvFrom W r + 1 + W - j) % W < s := by
          rw [herf]; omega
        rw [hBrf, if_pos hlt]
      · have hdw : (r + W - j) % W = W - 1 := by omega
        have hs0 : s = 0 := by
          rw [← hds, hee, hdw]
          have h3 : W - 1 + 1 = W := by omega
          rw [h3, Nat.mod_self]
        have hge : ¬((recvFrom W r + 1 + W - j) % W < s) := by
          rw [herf]; omega
        rw [hBrf, if_neg hge]
        have hdrf : (recvFrom W r + W - j) % W = W - 2 := by
          rw [dshift W r j (by omega) hj, hdw]
          rw [mod_eval W (W - 1 + W - 1) (by omega)]
          split_ifs <;> omega
        rw [phase1_eval W n g j i hW hj hmem (recvFrom W r) hrf, hdrf,
            if_pos (by omega)]
        have e2 : W - 2 + 2 = W := by omega
        rw [e2]
        exact windowSum_full W g (recvFrom W r) i (by omega) hrf
    · have hnm : ¬(r < W ∧ inChunk W n (chunkIdx2 W r s) i) := by
        rintro ⟨_, hcm⟩
        exact hds (hmemiff.mp hcm)
      rw [if_neg hnm]
      have hBr := ih (by omega) r hr
      rw [hBr]
      by_cases hlt : (r + 1 + W - j) % W < s
      · rw [if_pos hlt, if_pos (by omega)]
      · rw [if_neg hlt, if_neg (by omega)]

theorem ringAllReduce_eval (W n : Nat) (g : Nat → Nat → ℚ) (j i : Nat)
    (hW : 2 ≤ W) (hj : j < W) (hmem : inChunk W n j i) (r : Nat) (hr : r < W) :
    ringAllReduce W n g r i = ∑ k ∈ Finset.range W, g k i := by
  unfold ringAllReduce phase2
  rw [phase2_inv W n g j i hW hj hmem (W - 1) le_rfl r hr]
  by_cases hpos : (r + 1 + W - j) % W < W - 1
  · rw [if_pos hpos]
  · rw [if_neg hpos]
    have hd : (r + W - j) % W < W := Nat.mod_lt _ (by omega)
    have heW : (r + 1 + W - j) % W < W := Nat.mod_lt _ (by omega)
    have he1 : (r + 1 + W - j) % W = W - 1 := by omega
    have hee := e_eq W r j (by omega) hj
    rw [he1] at hee
    have hdm : (r + W - j) % W = W - 2 := by
      rw [mod_eval W ((r + W - j) % W + 1) (by omega)] at hee
      split_ifs at hee <;> omega
    rw [phase1_eval W n g j i hW hj hmem r hr, hdm, if_pos (by omega)]
    have e2 : W - 2 + 2 = W := by omega
    rw [e2]
    exact windowSum_full W g r i (by omega) hr

/-- Every rank ends `ring_all_reduce` with the elementwise sum of all `W`
input vectors, for every vector length (the last chunk absorbs the remainder
when `W` does not divide `n`). -/
theorem ringAllReduce_sum (W n : Nat) (g : Nat → Nat → ℚ) (hW : 2 ≤ W) :
    ∀ r, r < W → ∀ i, i < n → ringAllReduce W n g r i = ∑ k ∈ Finset.range W, g k i := by
  intro r hr i hi
  obtain ⟨j, hj, hmem⟩ := chunk_cover W n i (by omega) hi
  exact ringAllReduce_eval W n g j i hW hj hmem r hr

/-! ## Gather-based all-reduce (lines 52-67)

Ranks `1..W-1` send their vectors to rank 0 (mailbox 0 receives them in rank
order); rank 0 accumulates `total += data` with `receive(0, r)` for
`r = 1..W-1`, then sends `total` to every other rank, which returns
`receive(rank, 0)`.  `gatherLoop` is the rank-0 loop over the mailbox;
`all_reduce_result` is the value each rank returns. -/

def gatherLoop :
    List Nat → Option (List ℚ) × List (Nat × List ℚ) →
      Option (List ℚ) × List (Nat × List ℚ)
  | [], st => st
  | r :: rs, (tot, q) =>
    match receive q (r : Int) with
    | none => (none, q)
    | some (d, q2) => gatherLoop rs (tot.bind (fun t => npAddI t d), q2)

def all_reduce_sum (W : Nat) (gs : Nat → List ℚ) : Option (List ℚ) :=
  (gatherLoop (List.range' 1 (W - 1))
    (some (gs 0), (List.range' 1 (W - 1)).map (fun r => (r, gs r)))).1

def all_reduce_result (W : Nat) (gs : Nat → List ℚ) (r : Nat) : Option (List ℚ) :=
  if r = 0 then all_reduce_sum W gs
  else (all_reduce_sum W gs).bind (fun t => (receive [(0, t)] ((0 : Nat) : Int)).map Prod.fst)

theorem receive_head_match {α : Type} (src : Nat) (x : α) (q : List (Nat × α)) :
    receive ((src, x) :: q) ((src : Nat) : Int) = some (x, q) := by
  simp [receive, receiveAux]

/-- With sends and receives in the same rank order, the rank-0 gather loop
reduces to a plain fold of `npAddI` over the senders' vectors. -/
theorem gatherLoop_aligned (gs : Nat → List ℚ) :
    ∀ (rs : List Nat) (tot : Option (List ℚ)),
      gatherLoop rs (tot, rs.map (fun r => (r, gs r))) =
        (rs.foldl (fun acc r => acc.bind (fun t => npAddI t (gs r))) tot, []) := by
  intro rs
  induction rs with
  | nil => intro tot; rfl
  | cons r rs ih =>
    intro tot
    rw [List.map_cons, gatherLoop, receive_head_match]
    dsimp only
    rw [ih (tot.bind (fun t => npAddI t (gs r)))]
    rfl

theorem foldl_npAddI_spec :
    ∀ (vs : List (List ℚ)) (acc : List ℚ) (L : Nat), acc.length = L →
      (∀ v ∈ vs, v.length = L) →
      ∃ res, vs.foldl (fun a v => a.bind (fun t => npAddI t v)) (some acc) = some res ∧
        res.length = L ∧
        ∀ idx : Nat, res.getD idx 0 = acc.getD idx 0 + (vs.map (fun v => v.getD idx 0)).sum := by
  intro vs
  induction vs with
  | nil =>
    intro acc L hacc _
    exact ⟨acc, rfl, hacc, by simp⟩
  | cons v vs ih =>
    intro acc L hacc hmem
    have hv : v.length = L := hmem v (List.mem_cons_self v vs)
    have hadd : npAddI acc v = some (List.zipWith (fun x y => x + y) acc v) := by
      unfold npAddI
      rw [if_pos (by rw [hacc, hv])]
    have hlen : (List.zipWith (fun x y => x + y) acc v).length = L := by
      rw [zipWith_add_length acc v (by rw [hacc, hv])]
      exact hacc
    obtain ⟨res, hfold, hreslen, hres⟩ := ih (List.zipWith (fun x y => x + y) acc v) L hlen
      (fun u hu => hmem u (List.mem_cons_of_mem v hu))
    refine ⟨res, ?_, hreslen, ?_⟩
    · rw [List.foldl_cons, Option.some_bind, hadd]
      exact hfold
    · intro idx
      rw [hres idx, zipWith_add_getD acc v (by rw [hacc, hv]) idx]
      simp [add_assoc]

theorem all_reduce_sum_spec (W L : Nat) (gs : Nat → List ℚ) (hW : 1 ≤ W)
    (hlen : ∀ r, r < W → (gs r).length = L) :
    ∃ v, all_reduce_sum W gs = some v ∧ v.length = L ∧
      ∀ idx : Nat, v.getD idx 0 = ((List.range W).map (fun k => (gs k).getD idx 0)).sum := by
  unfold all_reduce_sum
  rw [gatherLoop_aligned gs (List.range' 1 (W - 1)) (some (gs 0))]
  have hfold : (List.range' 1 (W - 1)).foldl
      (fun acc r => acc.bind (fun t => npAddI t (gs r))) (some (gs 0)) =
      ((List.range' 1 (W - 1)).map gs).foldl
        (fun a v => a.bind (fun t => npAddI t v)) (some (gs 0)) := by
    rw [List.foldl_map]
  rw [hfold]
  have hmem : ∀ v ∈ (List.range' 1 (W - 1)).map gs, v.length = L := by
    intro v hv
    obtain ⟨r, hr, hrv⟩ := List.mem_map.mp hv
    have hrr : r < W := by
      have := List.mem_range'_1.mp hr
      omega
    rw [← hrv]
    exact hlen r hrr
  obtain ⟨res, hfold2, hreslen, hres⟩ :=
    foldl_npAddI_spec ((List.range' 1 (W - 1)).map gs) (gs 0) L (hlen 0 (by omega)) hmem
  refine ⟨res, by rw [hfold2], hreslen, ?_⟩
  intro idx
  rw [hres idx]
  have hrange : List.range W = 0 :: List.range' 1 (W - 1) := by
    rw [List.range_eq_range']
    have h1 : W = (W - 1) + 1 := by omega
    rw [h1, List.range'_succ]
    simp
  rw [hrange]
  simp only [List.map_cons, List.sum_cons, List.map_map]
  rfl

theorem all_reduce_result_spec (W L : Nat) (gs : Nat → List ℚ) (hW : 1 ≤ W)
    (hlen : ∀ r, r < W → (gs r).length = L) (r : Nat) :
    ∃ v, all_reduce_result W gs r = some v ∧ v.length = L ∧
      ∀ idx : Nat, v.getD idx 0 = ((List.range W).map (fun k => (gs k).getD idx 0)).sum := by
  obtain ⟨v, hv, hvlen, hvsum⟩ := all_reduce_sum_spec W L gs hW hlen
  unfold all_reduce_result
  by_cases hr : r = 0
  · rw [if_pos hr]
    exact ⟨v, hv, hvlen, hvsum⟩
  · rw [if_neg hr, hv]
    refine ⟨v, ?_, hvlen, hvsum⟩
    show (some v).bind (fun t => (receive [(0, t)] ((0 : Nat) : Int)).map Prod.fst) = some v
    rw [Option.some_bind, receive_head_match 0 v []]
    rfl

/-- C1: for every world size `W ≥ 2` and equal-length inputs, both the
gather-based `all_reduce_sum` (every rank's returned value) and
`ring_all_reduce` leave every rank holding the elementwise sum of the `W`
input vectors — exactly, over the embedded rational arithmetic — including
for `ring_all_reduce` on lengths not divisible by `W` (the last chunk absorbs
the remainder). -/
theorem C1_allreduce_and_ring_give_sum (W L n : Nat) (gs : Nat → List ℚ)
    (g : Nat → Nat → ℚ) (hW : 2 ≤ W) (hlen : ∀ r, r < W → (gs r).length = L) :
    (∀ r, r < W → ∃ v, all_reduce_result W gs r = some v ∧ v.length = L ∧
        ∀ idx : Nat, v.getD idx 0 =
          ((List.range W).map (fun k => (gs k).getD idx 0)).sum) ∧
      (∀ r, r < W → ∀ i, i < n →
        ringAllReduce W n g r i = ∑ k ∈ Finset.range W, g k i) := by
  constructor
  · intro r _
    exact all_reduce_result_spec W L gs (by omega) hlen r
  · exact ringAllReduce_sum W n g hW

theorem C1_witness :
    ((∀ r, r < 2 → ∃ v, all_reduce_result 2
          (fun r2 => if r2 = 0 then [(1 : ℚ), 2, 3] else [10, 20, 30]) r = some v ∧
          v.length = 3 ∧
          ∀ idx : Nat, v.getD idx 0 =
            ((List.range 2).map
              (fun k => ((fun r2 => if r2 = 0 then [(1 : ℚ), 2, 3] else [10, 20, 30]) k).getD
                idx 0)).sum) ∧
      (∀ r, r < 2 → ∀ i, i < 3 →
        ringAllReduce 2 3 (fun r2 i2 => if r2 = 0 then (i2 : ℚ) else 1) r i =
          ∑ k ∈ Finset.range 2, (fun r2 i2 => if r2 = 0 then (i2 : ℚ) else 1) k i)) :=
  C1_allreduce_and_ring_give_sum 2 3 3
    (fun r2 => if r2 = 0 then [(1 : ℚ), 2, 3] else [10, 20, 30])
    (fun r2 i2 => if r2 = 0 then (i2 : ℚ) else 1) (by omega)
    (by intro r hr; by_cases h : r = 0 <;> simp [h])

/-- Example gradients used to refute the stated reduce-scatter placement:
three ranks holding `[1,0,0]`, `[2,0,0]`, `[4,0,0]`. -/
def gEx : Nat → Nat → ℚ := fun r i =>
  if i = 0 then (if r = 0 then 1 else if r = 1 then 2 else 4) else 0

/-- C4 (counterexample): with `W = 3`, `n = 3` and the inputs `gEx`, after the
`W−1 = 2` reduce-scatter steps rank 0 holds `1 + 4 = 5` at position 0 — its
own chunk 0 — while the fully-reduced value of chunk 0 is `7`; so rank `r`
does *not* hold the fully-reduced value for chunk `r` (the full value of
chunk 0 sits at rank `(0 + W - 2) mod W = 1`). -/
theorem C4_counterexample :
    phase1 3 3 gEx 0 0 = 5 ∧ (∑ k ∈ Finset.range 3, gEx k 0) = 7 ∧
      phase1 3 3 gEx 0 0 ≠ ∑ k ∈ Finset.range 3, gEx k 0 := by
  have hrange3 : List.range 3 = [0, 1, 2] := rfl
  have hrange2 : List.range 2 = [0, 1] := rfl
  have h1 : phase1 3 3 gEx 0 0 = 5 := by
    unfold phase1 p1step
    rw [hrange2, hrange3]
    norm_num [sliceAddOne, inChunk, chunkIdx1, chunkStart, chunkEnd, recvFrom, gEx]
  have h2 : (∑ k ∈ Finset.range 3, gEx k 0) = 7 := by
    rw [Finset.sum_range_succ, Finset.sum_range_succ, Finset.sum_range_one]
    norm_num [gEx]
  refine ⟨h1, h2, ?_⟩
  rw [h1, h2]
  norm_num

/-- C4 (amended): at step `step` of the reduce-scatter phase each rank `r`
does accumulate chunk `(r − step) mod W` received from rank `(r−1) mod W`
(and the sequential in-place sweep equals the simultaneous update); but after
the `W−1` steps the fully-reduced value of chunk `j` is held by rank
`(j + W − 2) mod W` — equivalently rank `r` holds fully-reduced chunk
`(r − (W−2)) mod W` — which is chunk `r` only when `W = 2`. -/
theorem C4_reduce_scatter_placement (W n : Nat) (g : Nat → Nat → ℚ) (hW : 2 ≤ W) :
    (∀ s, s < W - 1 → ∀ (A : Nat → Nat → ℚ) (r2 i2 : Nat),
        p1step W n s A r2 i2 =
          if r2 < W ∧ inChunk W n (chunkIdx1 W r2 s) i2
          then A r2 i2 + A (recvFrom W r2) i2
          else A r2 i2) ∧
      (∀ j i, j < W → inChunk W n j i →
        phase1 W n g ((j + W - 2) % W) i = ∑ k ∈ Finset.range W, g k i) := by
  constructor
  · intro s hs A r2 i2
    exact p1step_apply W n s A hW (by omega) r2 i2
  · intro j i hj hmem
    have hr : (j + W - 2) % W < W := Nat.mod_lt _ (by omega)
    rw [phase1_eval W n g j i hW hj hmem _ hr]
    have hd : ((j + W - 2) % W + W - j) % W = W - 2 := by
      rw [mod_shift_left W (j + W - 2) j (by omega) (by omega)]
      have he : j + W - 2 + W - j = (W - 2) + W := by omega
      rw [he, Nat.add_mod_right]
      exact Nat.mod_eq_of_lt (by omega)
    rw [hd, if_pos (by omega)]
    have e2 : W - 2 + 2 = W := by omega
    rw [e2]
    exact windowSum_full W g ((j + W - 2) % W) i (by omega) hr

theorem C4_witness :
    phase1 3 3 gEx ((0 + 3 - 2) % 3) 0 = ∑ k ∈ Finset.range 3, gEx k 0 :=
  (C4_reduce_scatter_placement 3 3 gEx (by omega)).2 0 0 (by omega) (by decide)

/-! ## Chunk-transfer accounting for the ring (C7)

The instrumented phases perform exactly the same updates while counting one
chunk transfer per `(step, rank)` loop iteration — each inner iteration sends
and receives one chunk slice. -/

def p1stepC (W n s : Nat) (AC : (Nat → Nat → ℚ) × Nat) : (Nat → Nat → ℚ) × Nat :=
  (List.range W).foldl (fun BC r => (sliceAddOne W n s r BC.1, BC.2 + 1)) AC

def phase1C (W n : Nat) (AC : (Nat → Nat → ℚ) × Nat) : (Nat → Nat → ℚ) × Nat :=
  (List.range (W - 1)).foldl (fun BC s => p1stepC W n s BC) AC

def p2stepC (W n s : Nat) (AC : (Nat → Nat → ℚ) × Nat) : (Nat → Nat → ℚ) × Nat :=
  (List.range W).foldl (fun BC r => (sliceCopyOne W n s r BC.1, BC.2 + 1)) AC

def phase2C (W n : Nat) (AC : (Nat → Nat → ℚ) × Nat) : (Nat → Nat → ℚ) × Nat :=
  (List.range (W - 1)).foldl (fun BC s => p2stepC W n s BC) AC

def ringAllReduceC (W n : Nat) (g : Nat → Nat → ℚ) : (Nat → Nat → ℚ) × Nat :=
  phase2C W n (phase1C W n (g, 0))

def ringTransfers (W n : Nat) (g : Nat → Nat → ℚ) : Nat := (ringAllReduceC W n g).2

theorem foldl_count (f : Nat → (Nat → Nat → ℚ) → Nat → Nat → ℚ) :
    ∀ (l : List Nat) (A : Nat → Nat → ℚ) (c : Nat),
      l.foldl (fun BC r => (f r BC.1, BC.2 + 1)) (A, c) =
        (l.foldl (fun B r => f r B) A, c + l.length) := by
  intro l
  induction l with
  | nil => intro A c; simp
  | cons r rs ih =>
    intro A c
    simp only [List.foldl_cons]
    rw [ih (f r A) (c + 1)]
    simp only [List.length_cons]
    congr 1
    omega

theorem p1stepC_eq (W n s : Nat) (A : Nat → Nat → ℚ) (c : Nat) :
    p1stepC W n s (A, c) = (p1step W n s A, c + W) := by
  unfold p1stepC p1step
  rw [foldl_count (fun r B => sliceAddOne W n s r B) (List.range W) A c]
  simp

theorem p2stepC_eq (W n s : Nat) (A : Nat → Nat → ℚ) (c : Nat) :
    p2stepC W n s (A, c) = (p2step W n s A, c + W) := by
  unfold p2stepC p2step
  rw [foldl_count (fun r B => sliceCopyOne W n s r B) (List.range W) A c]
  simp

theorem phase1C_foldl (W n : Nat) :
    ∀ (l : List Nat) (A : Nat → Nat → ℚ) (c : Nat),
      l.foldl (fun BC s => p1stepC W n s BC) (A, c) =
        (l.foldl (fun B s => p1step W n s B) A, c + l.length * W) := by
  intro l
  induction l with
  | nil => intro A c; simp
  | cons s ss ih =>
    intro A c
    simp only [List.foldl_cons]
    rw [p1stepC_eq, ih (p1step W n s A) (c + W)]
    simp only [List.length_cons]
    congr 1
    ring

theorem phase2C_foldl (W n : Nat) :
    ∀ (l : List Nat) (A : Nat → Nat → ℚ) (c : Nat),
      l.foldl (fun BC s => p2stepC W n s BC) (A, c) =
        (l.foldl (fun B s => p2step W n s B) A, c + l.length * W) := by
  intro l
  induction l with
  | nil => intro A c; simp
  | cons s ss ih =>
    intro A c
    simp only [List.foldl_cons]
    rw [p2stepC_eq, ih (p2step W n s A) (c + W)]
    simp only [List.length_cons]
    congr 1
    ring

/-- C7: one run of `ring_all_reduce` performs exactly `2·W·(W−1)` chunk
transfers — `W·(W−1)` in reduce-scatter plus `W·(W−1)` in all-gather —
independent of the vector contents, and the instrumented run computes the
same values as the uninstrumented one. -/
theorem C7_ring_transfer_count (W n : Nat) (g : Nat → Nat → ℚ) (hW : 2 ≤ W) :
    ringTransfers W n g = 2 * W * (W - 1) ∧
      (ringAllReduceC W n g).1 = ringAllReduce W n g := by
  have h1 : phase1C W n (g, 0) = (phase1 W n g, 0 + (W - 1) * W) := by
    unfold phase1C phase1
    rw [phase1C_foldl W n (List.range (W - 1)) g 0]
    simp
  have h2 : ringAllReduceC W n g =
      (phase2 W n (phase1 W n g), 0 + (W - 1) * W + (W - 1) * W) := by
    unfold ringAllReduceC phase2C phase2
    rw [h1]
    rw [phase2C_foldl W n (List.range (W - 1)) (phase1 W n g) (0 + (W - 1) * W)]
    simp
  constructor
  · unfold ringTransfers
    rw [h2]
    show 0 + (W - 1) * W + (W - 1) * W = 2 * W * (W - 1)
    have hWpos : 1 ≤ W := by omega
    cases W with
    | zero => omega
    | succ w =>
      simp only [Nat.succ_sub_one]
      ring
  · rw [h2]
    rfl

theorem C7_witness :
    ringTransfers 2 3 (fun r i => if r = 0 then (i : ℚ) else 1) = 2 * 2 * (2 - 1) ∧
      (ringAllReduceC 2 3 (fun r i => if r = 0 then (i : ℚ) else 1)).1 =
        ringAllReduce 2 3 (fun r i => if r = 0 then (i : ℚ) else 1) :=
  C7_ring_transfer_count 2 3 (fun r i => if r = 0 then (i : ℚ) else 1) (by omega)

/-- C6 (counterexample): aggregating vectors of differing length does not
always fail — a length-1 operand is silently numpy-broadcast:
`all_reduce_sum` over `[1,2,3]` and `[10]` returns `[11,12,13]` with no
error.  And when an error *is* raised, the store is not left unmutated: a
`ParameterServer.update` whose `"W"` gradient matches but whose `"b"`
gradient has an incompatible shape raises after the `"W"` array was already
updated in place (heap `[[0,0],[0]]` becomes `[[-1,-1],[0]]`). -/
theorem C6_counterexample :
    all_reduce_sum 2 (fun r => if r = 0 then [(1 : ℚ), 2, 3] else [10]) =
        some [11, 12, 13] ∧
      psUpdate (PState.mk [[0, 0], [0]] [("W", 0), ("b", 1)] 0 0)
          [("W", [1, 1]), ("b", [2, 2])] 1 =
        Except.error (PState.mk [[-1, -1], [0]] [("W", 0), ("b", 1)] 0 0) ∧
      (PState.mk [[-1, -1], [0]] [("W", 0), ("b", 1)] 0 0).heap ≠
        (PState.mk [[0, 0], [0]] [("W", 0), ("b", 1)] 0 0).heap := by
  refine ⟨?_, ?_, ?_⟩
  · show (gatherLoop (List.range' 1 1) _).1 = some [11, 12, 13]
    have hr : List.range' 1 1 = [1] := rfl
    rw [hr]
    norm_num [gatherLoop, receive, receiveAux, npAddI]
  · norm_num [psUpdate, psUpdateGo, npSubI, List.lookup]
    simp +decide
  · intro h
    have h1 : ([-1, -1] : List ℚ) = [0, 0] := List.head_eq_of_cons_eq h
    have h2 : (-1 : ℚ) = 0 := List.head_eq_of_cons_eq h1
    norm_num at h2

/-- C6 (amended): aggregating 1-D vectors whose lengths differ and where the
right operand does not have length 1 raises a broadcast error — it never
silently truncates or pads — and the gather-based all-reduce of two such
vectors fails rather than producing a value (a length-1 operand, however, is
silently broadcast, and a failing `ParameterServer.update` may leave
earlier-keyed arrays already mutated). -/
theorem C6_length_mismatch_errors (a b : List ℚ) (ha : 2 ≤ a.length)
    (hb : 2 ≤ b.length) (hne : a.length ≠ b.length) :
    npAddI a b = none ∧
      all_reduce_sum 2 (fun r => if r = 0 then a else b) = none := by
  have h1 : npAddI a b = none := by
    unfold npAddI
    rw [if_neg hne, if_neg (by omega)]
  refine ⟨h1, ?_⟩
  show (gatherLoop (List.range' 1 1) _).1 = none
  have hr : List.range' 1 1 = [1] := rfl
  rw [hr]
  simp only [List.map_cons, List.map_nil]
  rw [gatherLoop]
  have hrecv : receive [((1 : Nat), (fun r => if r = 0 then a else b) 1)] ((1 : Nat) : Int) =
      some ((fun r => if r = 0 then a else b) 1, []) := receive_head_match 1 _ []
  rw [hrecv]
  simp [gatherLoop, h1]

theorem C6_witness :
    npAddI [(1 : ℚ), 2, 3] [4, 5, 6, 7] = none ∧
      all_reduce_sum 2 (fun r => if r = 0 then [(1 : ℚ), 2, 3] else [4, 5, 6, 7]) = none :=
  C6_length_mismatch_errors [(1 : ℚ), 2, 3] [4, 5, 6, 7] (by decide) (by decide) (by decide)
